import Mathlib

/-!
# RLE-Engine: shallow embedding and verification

Shallow embedding of the RLE codec from `RLE Engine/RLE_Shared.h`,
`RLE_Deflate.h` and `RLE_Inflate.h`, together with proofs and refutations of
the specification's claims.

Conventions of the embedding:
* machine integers (`uint8_t`/`uint16_t`/`uint32_t`/`uint64_t`/`size_t`) are
  `Nat`; every narrowing cast of the source is an explicit `% 2^w`;
* `x >> k` is `x / 2^k`, `x << k` is `x * 2^k`, `x & (2^k - 1)` is `x % 2^k`,
  and `a | b` where the two operands occupy disjoint bit ranges (which is the
  case at every `|` of the source) is `a + b`;
* the C++ field and struct names `prefix`/`PackedNode` collide with Lean
  keywords, so the field is called `pre` and the node struct `PNode`;
* loops whose counters decrease by a data-dependent amount are written with an
  explicit fuel argument so that they stay structurally recursive (and hence
  kernel-computable); the fuel passed by the wrappers provably never runs out
  because every iteration consumes at least one unit of the measure;
* `throw` of the source becomes `Option`/`Except`; undefined behaviour that a
  real execution cannot recover from (`std::copy(first, last, ...)` invoked
  with `first` past `last`, dereferencing the end iterator) becomes `none`;
* a byte read beyond a mapped view (possible in the source, where views are
  page-backed) yields an unspecified byte; the embedding reads `0` there, and
  no theorem below depends on that choice.
-/

set_option maxRecDepth 20000

/-- `Run` from `RLE_Shared.h`: `prefix` (here `pre`) counts the non-run bytes
since the previous run's tail, `length` the run length, `value` the repeated
byte. -/
structure Run where
  pre : Nat
  length : Nat
  value : Nat
deriving DecidableEq, Repr

/-- The four concrete node layouts (`Node8x8` … `Node16x16` of the source),
i.e. the four instantiations of the `PackedNode<PrefixT, LengthT>` template. -/
inductive Fmt where
  | P8L8
  | P8L16
  | P16L8
  | P16L16
deriving DecidableEq, Repr

/-- `bitsizeof<PrefixType>()`. -/
def Fmt.pbits : Fmt → Nat
  | .P8L8 => 8
  | .P8L16 => 8
  | .P16L8 => 16
  | .P16L16 => 16

/-- `bitsizeof<LengthType>()`. -/
def Fmt.lbits : Fmt → Nat
  | .P8L8 => 8
  | .P8L16 => 16
  | .P16L8 => 8
  | .P16L16 => 16

/-- `PackedNode::PrefixMax = numeric_limits<PrefixType>::max()`. -/
def Fmt.pmax (f : Fmt) : Nat := 2 ^ f.pbits - 1

/-- `PackedNode::LengthMax = numeric_limits<LengthType>::max()`. -/
def Fmt.lmax (f : Fmt) : Nat := 2 ^ f.lbits - 1

/-- `sizeof(PackedNode)` under `#pragma pack(1)`: the two fields plus the
value byte. -/
def Fmt.size (f : Fmt) : Nat := f.pbits / 8 + f.lbits / 8 + 1

/-- The low byte of the format magic (`NodeFormat` enumerator values). -/
def Fmt.magicByte : Fmt → Nat
  | .P8L8 => 0x11
  | .P8L16 => 0x12
  | .P16L8 => 0x21
  | .P16L16 => 0x22

/-- The `NodeFormat` enum of the source: the four layouts plus the
`INEFFICIENT` sentinel. -/
inductive NodeFormat where
  | fmt (f : Fmt)
  | INEFFICIENT
deriving DecidableEq, Repr

/-- One packed record (`PackedNode<PrefixT, LengthT>`); the `prefix` field is
called `pre`.  Construction sites keep each field below its width. -/
structure PNode where
  pre : Nat
  length : Nat
  value : Nat
deriving DecidableEq, Repr

/-- `maxSkipLength = PrefixMax | (byteMax << bitsizeof<PrefixType>())`
(the operands are bit-disjoint, so `|` is `+`).  The same constant appears in
`PackedNode::beSkipNode` and in `calculateRunEfficiencyByFormat`. -/
def maxSkipLength (f : Fmt) : Nat := f.pmax + 255 * 2 ^ f.pbits

/-- `maxLongLength = LengthMax | ((uint64_t)PrefixMax << bitsizeof<LengthType>())`
from `PackedNode::beLongNode` (bit-disjoint `|` as `+`). -/
def maxLongLength (f : Fmt) : Nat := f.lmax + f.pmax * 2 ^ f.lbits

/-- `longNodeMax = ((uint64_t)LengthMax << bitsizeof<PrefixType>()) | PrefixMax`
as written in `calculateRunEfficiencyByFormat` (bit-disjoint `|` as `+`).
It evaluates to the same number as `maxLongLength`, see
`longNodeMax_eq_maxLongLength`. -/
def longNodeMax (f : Fmt) : Nat := f.lmax * 2 ^ f.pbits + f.pmax

/-- `PackedNode::getLongLength() = length | (prefix << bitsizeof<LengthType>())`
(bit-disjoint `|` as `+`: the `length` field is below `2^lbits`). -/
def getLongLength (f : Fmt) (n : PNode) : Nat := n.length + n.pre * 2 ^ f.lbits

/-- `PackedNode::getSkipLength() = prefix | (value << bitsizeof<PrefixType>())`
(bit-disjoint `|` as `+`: the `prefix` field is below `2^pbits`). -/
def getSkipLength (f : Fmt) (n : PNode) : Nat := n.pre + n.value * 2 ^ f.pbits

/-- `PackedNode::beSkipNode(totalPrefix)`: returns the node written and the
number of prefix bytes consumed.  The source throws when
`totalPrefix < PrefixMax` (modelled as `none`); the cast
`(uint8_t)(totalPrefix >> pbits)` is `/ 2^pbits % 256` and
`totalPrefix & PrefixMax` is `% 2^pbits`. -/
def beSkipNode (f : Fmt) (totalPre : Nat) : Option (PNode × Nat) :=
  if totalPre < f.pmax then
    none
  else if maxSkipLength f < totalPre then
    some (⟨f.pmax, 0, 255⟩, maxSkipLength f)
  else
    some (⟨totalPre % 2 ^ f.pbits, 0, totalPre / 2 ^ f.pbits % 256⟩, totalPre)

/-- `PackedNode::beSignalNode(prefixSize)`: sets `(prefixSize, 0, 0)`. -/
def beSignalNode (f : Fmt) (preSize : Nat) : PNode :=
  ⟨preSize % 2 ^ f.pbits, 0, 0⟩

/-- `PackedNode::beLongNode(longLength, runValue)`: returns the node written
and the length consumed.  (The source constructs but forgets to `throw` its
exception when `longLength < LengthMax`, so that branch has no effect.)  The
casts `(PrefixType)(longLength >> lbits)` and `(LengthType)(longLength & LengthMax)`
are `/ 2^lbits % 2^pbits` and `% 2^lbits`. -/
def beLongNode (f : Fmt) (longLength runValue : Nat) : PNode × Nat :=
  if maxLongLength f < longLength then
    (⟨f.pmax, f.lmax, runValue⟩, maxLongLength f)
  else
    (⟨longLength / 2 ^ f.lbits % 2 ^ f.pbits, longLength % 2 ^ f.lbits, runValue⟩,
      longLength)

/-- First loop of `parseRun` (`RLE_Deflate.h`): emit skip nodes while the
remaining prefix exceeds `PrefixMax`; returns the residual prefix and the
nodes emitted.  `fuel` only makes the recursion structural: each iteration
consumes at least one byte of prefix, so `fuel = pre + 1` never runs out. -/
def skipLoopF (f : Fmt) : Nat → Nat → Nat × List PNode
  | 0, p => (p, [])
  | fuel + 1, p =>
    if f.pmax < p then
      match beSkipNode f p with
      | none => (p, [])
      | some (n, c) =>
        let r := skipLoopF f fuel (p - c)
        (r.1, n :: r.2)
    else (p, [])

/-- Second loop of `parseRun`: while the remaining length exceeds `LengthMax`,
emit a signal node carrying `(uint8_t)prefix` — note the narrowing cast, which
is `% 256` even for 16-bit prefix fields — followed by a long node; returns
the residual length and the nodes emitted. -/
def longLoopF (f : Fmt) : Nat → Nat → Nat → Nat → Nat × List PNode
  | 0, _, len, _ => (len, [])
  | fuel + 1, p, len, v =>
    if f.lmax < len then
      let nc := beLongNode f len v
      let r := longLoopF f fuel p (len - nc.2) v
      (r.1, beSignalNode f (p % 256) :: nc.1 :: r.2)
    else (len, [])

/-- `parseRun<NodeType>(run, outVec)`: skip nodes, then signal/long pairs,
then — unless degenerate — one standard node (with the `emplace_back` casts
to `PrefixType`/`LengthType` made explicit). -/
def parseRun (f : Fmt) (run : Run) : List PNode :=
  let s := skipLoopF f (run.pre + 1) run.pre
  let l := longLoopF f (run.length + 1) s.1 run.length run.value
  s.2 ++ l.2 ++
    (if f.size < l.1 then [⟨s.1 % 2 ^ f.pbits, l.1 % 2 ^ f.lbits, run.value⟩] else [])

/-- `parseRunSet` / `generateRLETable`: all runs' nodes concatenated in run
order.  (The source splits the run list into four contiguous blocks processed
by worker threads and concatenates the per-block vectors in partition order,
which yields exactly this list.) -/
def parseRunSet (f : Fmt) : List Run → List PNode
  | [] => []
  | r :: rs => parseRun f r ++ parseRunSet f rs

/-- `calculateRunEfficiencyByFormat<NodeType>(run)`: the analytic per-run
saving — bytes the encoding absorbs minus bytes of the nodes it would emit —
computed without materializing nodes.  The `(nodes, length, lengthProcessed)`
triple tracks the source's three mutable locals through its three sections. -/
def calculateRunEfficiencyByFormat (f : Fmt) (run : Run) : Int :=
  let skips : Nat :=
    if f.pmax < run.pre then
      run.pre / maxSkipLength f +
        (if f.pmax < run.pre % maxSkipLength f then 1 else 0)
    else 0
  let st : Nat × Nat × Nat :=
    if f.lmax < run.length then
      let g := longNodeMax f
      let maxLongs := run.length / g
      let rem := run.length % g
      if f.lmax < rem then
        (skips + 2 * maxLongs + 2, run.length - maxLongs * g - rem,
          maxLongs * g + rem)
      else
        (skips + 2 * maxLongs, run.length - maxLongs * g, maxLongs * g)
    else (skips, run.length, 0)
  let fin : Nat × Nat :=
    if f.size < st.2.1 then (st.1 + 1, st.2.2 + st.2.1) else (st.1, st.2.2)
  (fin.2 : Int) - fin.1 * f.size

/-- `calculateFormatEfficiency<NodeType>(runs)`: sum of the per-run savings. -/
def calculateFormatEfficiency (f : Fmt) : List Run → Int
  | [] => 0
  | r :: rs => calculateRunEfficiencyByFormat f r + calculateFormatEfficiency f rs

/-- The selection scan of `selectFormat`: start from `(INEFFICIENT, 0)` and
take every entry whose efficiency strictly exceeds the best so far.  The
source iterates a `std::unordered_map`, whose order is unspecified; the scan
is therefore parameterized by the visit order (see the C4 analysis). -/
def selectScan (runs : List Run) (order : List Fmt) : NodeFormat × Int :=
  order.foldl
    (fun best f =>
      if best.2 < calculateFormatEfficiency f runs
      then (NodeFormat.fmt f, calculateFormatEfficiency f runs)
      else best)
    (NodeFormat.INEFFICIENT, 0)

/-- `selectFormat(runs)` with one possible (declaration-order) visit order.
Every theorem below that evaluates `selectFormat` does so at an input whose
maximal efficiency is strict, where the result is order-independent. -/
def selectFormat (runs : List Run) : NodeFormat × Int :=
  selectScan runs [.P8L8, .P8L16, .P16L8, .P16L16]

/-- Inner `while` of `collectRuns`: starting from `run.length = acc`, count
up while the head of the list equals `v`, exactly as the source's
`while(++i < size && data[i] == value) run.length++`. -/
def takeRun (v : Nat) : Nat → List Nat → Nat
  | acc, [] => acc
  | acc, x :: xs => if x = v then takeRun v (acc + 1) xs else acc

/-- `collectRuns` scan (`RLE_Deflate.h`): walk the data, measure the run at
the current position (`run.length` starts at 1), record it when longer than
`sizeof(Node8x8)` bytes and advance `prevTailPos` to its tail.
`fuel = data.length + 1` is always enough because every step consumes at
least one byte. -/
def collectRunsFuel : Nat → Nat → Nat → List Nat → List Run
  | 0, _, _, _ => []
  | _ + 1, _, _, [] => []
  | fuel + 1, pos, prevTail, x :: xs =>
    let len := takeRun x 1 xs
    if Fmt.P8L8.size < len then
      ⟨pos - prevTail, len, x⟩ ::
        collectRunsFuel fuel (pos + len) (pos + len) (xs.drop (len - 1))
    else
      collectRunsFuel fuel (pos + len) prevTail (xs.drop (len - 1))

/-- `collectRuns(data)`. -/
def collectRuns (data : List Nat) : List Run :=
  collectRunsFuel (data.length + 1) 0 0 data

/-- `measureEfficiency<NodeType>(nodes)` of `main.cpp`, absorbed-bytes part:
walk the node vector with the `longNode` flag, adding `getLongLength()` for a
node that follows a signal and the `length` field otherwise.  The full
`measureEfficiency` is this minus `span(nodes).size_bytes()`. -/
def absorbedBytes (f : Fmt) : Bool → List PNode → Nat
  | _, [] => 0
  | true, n :: rest => getLongLength f n + absorbedBytes f false rest
  | false, n :: rest =>
    n.length + absorbedBytes f (n.length == 0 && n.value == 0) rest

/-- The reader-safety invariant of a node table: walking it the way
`extractTable` and `deflateData` do, every record interpreted as a signal
(`length == 0 && value == 0` in reading position) has a following record,
which the walk consumes unconditionally as its long node. -/
def tableWellFormed : List PNode → Bool
  | [] => true
  | n :: rest =>
    if n.length == 0 && n.value == 0 then
      match rest with
      | [] => false
      | _ :: rest' => tableWellFormed rest'
    else tableWellFormed rest

/-- Error taxonomy of the codec (spec section 7), restricted to the kinds the
modelled code paths can raise. -/
inductive DeflateError where
  | Inefficient
  | TableTooLarge
deriving DecidableEq, Repr

/-- `inflateFile`'s error kinds: `BadMagic` (`Header::checkMagic` throw),
`BadFormat` (`extractTableByFormat` fall-through throw), `LengthMismatch`
(final cursor check throw). -/
inductive InflateError where
  | BadMagic
  | BadFormat
  | LengthMismatch
deriving DecidableEq, Repr

/-- Tail-recursive list length (`size()` / iterator distance of the source);
equal to `List.length`, see `listLen_eq`. -/
def listLen {α : Type} : Nat → List α → Nat
  | n, [] => n
  | n, _ :: xs => listLen (n + 1) xs

/-- `w` little-endian bytes of `v` (a packed multi-byte field as laid out in
memory; narrowing to the field width is the `% 256` of each byte). -/
def leBytes (w v : Nat) : List Nat :=
  (List.range w).map (fun k => v / 256 ^ k % 256)

/-- Read a `w`-byte little-endian integer at offset `off`.  A read beyond the
view yields an unspecified byte, modelled as `0`; memory bytes are below 256,
modelled by the `% 256`. -/
def leNat (bytes : List Nat) (off w : Nat) : Nat :=
  ((List.range w).map (fun k => bytes.getD (off + k) 0 % 256 * 256 ^ k)).sum

/-- Memory image of one packed node: `prefix` field, `length` field, value
byte, little-endian, no padding (`#pragma pack(1)`). -/
def nodeBytes (f : Fmt) (n : PNode) : List Nat :=
  leBytes (f.pbits / 8) n.pre ++ leBytes (f.lbits / 8) n.length ++ [n.value % 256]

/-- Reinterpret `count` packed records at the head of `bytes` (the
`reinterpret_cast` + `std::span` of `deflateData` and `extractTable`). -/
def parseNodes (f : Fmt) (bytes : List Nat) (count : Nat) : List PNode :=
  (List.range count).map fun i =>
    ⟨leNat bytes (i * f.size) (f.pbits / 8),
      leNat bytes (i * f.size + f.pbits / 8) (f.lbits / 8),
      bytes.getD (i * f.size + f.pbits / 8 + f.lbits / 8) 0 % 256⟩

/-- `std::copy(data + pos, data + pos + n, out)` as the list of bytes written:
always `n` bytes (the cursor advances by `n` regardless), reading unspecified
bytes (modelled `0`) beyond the view. -/
def copyBytes (data : List Nat) (pos n : Nat) : List Nat :=
  (data.drop pos ++ List.replicate n 0).take n

/-- One step of the `deflateData` state machine: state is (bytes written so
far, input cursor, `longNode` flag). -/
def deflateStep (f : Fmt) (data : List Nat) (st : List Nat × Nat × Bool)
    (n : PNode) : List Nat × Nat × Bool :=
  if st.2.2 then
    (st.1, st.2.1 + getLongLength f n, false)
  else
    let gap :=
      if n.length = 0 then
        if n.value = 0 then n.pre else getSkipLength f n
      else n.pre
    (st.1 ++ copyBytes data st.2.1 gap, st.2.1 + gap + n.length,
      n.length == 0 && n.value == 0)

/-- The `deflateData` node walk: interleave the verbatim gaps dictated by the
node stream, returning the verbatim bytes written and the final input
cursor. -/
def deflateWalk (f : Fmt) (data : List Nat) (nodes : List PNode) :
    List Nat × Nat × Bool :=
  nodes.foldl (deflateStep f data) ([], 0, false)

/-- The 16-byte packed `Header`: `'R','L','E'`, format magic byte,
`decompressedLength : u64`, `tableNodeCount : u32`, little-endian. -/
def headerBytes (f : Fmt) (decompressedLength tableNodeCount : Nat) : List Nat :=
  [82, 76, 69, f.magicByte] ++ leBytes 8 decompressedLength ++
    leBytes 4 tableNodeCount

/-- `deflateFile` as a function from the input bytes to the bytes written:
collect runs, select the format (throwing `Inefficient` on the sentinel),
materialize and serialize the table, then run the `deflateData` walk — which
re-reads the node records from the output buffer — and append the trailing
verbatim bytes.  If the walk's input cursor passes the end of the input, the
trailing `std::copy(inIter, inView.end(), ...)` is invoked with its first
iterator past its last and the write never terminates: `none`. -/
def deflateModel (data : List Nat) : Option (Except DeflateError (List Nat)) :=
  let runs := collectRuns data
  let sel := selectFormat runs
  match sel.1 with
  | .INEFFICIENT => some (.error .Inefficient)
  | .fmt f =>
    let table := parseRunSet f runs
    let tlen := listLen 0 table
    if 2 ^ 32 - 1 < tlen then some (.error .TableTooLarge)
    else
      let tBytes := (table.map (nodeBytes f)).flatten
      let nodes := parseNodes f tBytes tlen
      let w := deflateWalk f data nodes
      if listLen 0 data < w.2.1 then none
      else
        some (.ok (headerBytes f (listLen 0 data) tlen ++ tBytes ++
          w.1 ++ data.drop w.2.1))

/-- The walk of `extractTable<NodeType>`: rebuild logical runs from the node
records, accumulating prefixes over skip and signal records.  On a signal
record the source does `iter++` and dereferences unconditionally; a signal as
last record dereferences the end iterator — `none`. -/
def extractTableGo (f : Fmt) (accPre : Nat) : List PNode → Option (List Run)
  | [] => some []
  | n :: rest =>
    if n.length = 0 then
      if n.value = 0 then
        match rest with
        | [] => none
        | m :: rest' =>
          (extractTableGo f 0 rest').map
            (fun rs => ⟨accPre + n.pre, getLongLength f m, m.value⟩ :: rs)
      else
        extractTableGo f (accPre + getSkipLength f n) rest
    else
      (extractTableGo f 0 rest).map
        (fun rs => ⟨accPre + n.pre, n.length, n.value⟩ :: rs)

/-- `extractTable<NodeType>(data, nodeCount)`. -/
def extractTable (f : Fmt) (nodes : List PNode) : Option (List Run) :=
  extractTableGo f 0 nodes

/-- Decode the format byte the way `inflateFile`'s dispatch does: the four
known values select a layout, anything else falls through every `switch` and
`extractTableByFormat` throws (`BadFormat`). -/
def decodeFmt (b : Nat) : Option Fmt :=
  if b = 0x11 then some .P8L8
  else if b = 0x12 then some .P8L16
  else if b = 0x21 then some .P16L8
  else if b = 0x22 then some .P16L16
  else none

/-- The run-replay loop of `inflateFile`: for each logical run copy
`run.prefix` bytes from the input cursor and fill `run.length` bytes of
`run.value`; state is (output bytes, input cursor). -/
def inflateRunsWalk (file : List Nat) (startIn : Nat) (runs : List Run) :
    List Nat × Nat :=
  runs.foldl
    (fun acc r =>
      (acc.1 ++ copyBytes file acc.2 r.pre ++ List.replicate r.length (r.value % 256),
        acc.2 + r.pre))
    ([], startIn)

/-- `inflateFile` as a function from the compressed bytes to the inflated
bytes.  `checkMagic` throws `BadMagic` unless bytes 0..2 are `'R','L','E'`;
an unknown format byte throws `BadFormat` (both before the output file is
created); then the table is reinterpreted and converted to runs, the runs are
replayed, the remaining input is copied, and the final cursor must land
exactly on `decompressedLength`, else `LengthMismatch`.  As in `deflateModel`,
a trailing copy whose start is past the end of the input never terminates:
`none`. -/
def inflateModel (file : List Nat) : Option (Except InflateError (List Nat)) :=
  if file.take 3 = [82, 76, 69] then
    match decodeFmt (file.getD 3 0 % 256) with
    | some f =>
      let count := leNat file 12 4
      match extractTable f (parseNodes f (file.drop 16) count) with
      | some table =>
        let w := inflateRunsWalk file (16 + count * f.size) table
        if listLen 0 file < w.2 then none
        else
          let out := w.1 ++ file.drop w.2
          if listLen 0 out = leNat file 4 8 then some (.ok out)
          else some (.error .LengthMismatch)
      | none => none
    | none => some (.error .BadFormat)
  else some (.error .BadMagic)

instance {e a : Type} [DecidableEq e] [DecidableEq a] : DecidableEq (Except e a) := fun x y =>
  match x, y with
  | .ok u, .ok v => if h : u = v then isTrue (by rw [h]) else isFalse (by simp [h])
  | .error u, .error v => if h : u = v then isTrue (by rw [h]) else isFalse (by simp [h])
  | .ok _, .error _ => isFalse (by simp)
  | .error _, .ok _ => isFalse (by simp)

/-- Does a modelled codec call return normally (with output bytes)? -/
def isOkResult {e : Type} : Option (Except e (List Nat)) → Bool
  | some (.ok _) => true
  | _ => false

/-- The bytes a modelled codec call returns (junk when it does not return). -/
def okBytes {e : Type} : Option (Except e (List Nat)) → List Nat
  | some (.ok y) => y
  | _ => []

theorem listLen_eq {α : Type} (l : List α) : ∀ n, listLen n l = n + l.length := by
  induction l with
  | nil => intro n; simp [listLen]
  | cons x xs ih => intro n; simp [listLen, ih]; omega

theorem okBytes_spec {e : Type} (o : Option (Except e (List Nat)))
    (h : isOkResult o = true) : o = some (.ok (okBytes o)) := by
  match o, h with
  | some (.ok y), _ => rfl

theorem ne_of_getD_ne (a b : List Nat) (i d : Nat)
    (h : a.getD i d ≠ b.getD i d) : a ≠ b := by
  intro he; exact h (by rw [he])

theorem longNodeMax_eq_maxLongLength (f : Fmt) : longNodeMax f = maxLongLength f := by
  cases f <;> decide

/-- Claim C5: for every format, `beSkipNode` with `totalGap > Pmax` saturates
to `(Pmax, 0, 255)` consuming `maxSkip = Pmax | (255 << P)` when
`totalGap > maxSkip` and otherwise writes `(totalGap & Pmax, 0, totalGap >> P)`
consuming `totalGap`, with `getSkipLength` recovering `totalGap`; and
symmetrically `beLongNode` with `totalLen > Lmax` saturates to
`(Pmax, Lmax, v)` consuming `maxLong = Lmax | (Pmax << L)` when
`totalLen > maxLong` and otherwise writes `(totalLen >> L, totalLen & Lmax, v)`
consuming `totalLen`, with `getLongLength` recovering `totalLen`. -/
theorem skip_and_long_node_encodings (f : Fmt) (g L v : Nat)
    (hg : f.pmax < g) (hL : f.lmax < L) :
    ((maxSkipLength f < g →
        beSkipNode f g = some (⟨f.pmax, 0, 255⟩, maxSkipLength f)) ∧
      (g ≤ maxSkipLength f →
        beSkipNode f g = some (⟨g % 2 ^ f.pbits, 0, g / 2 ^ f.pbits⟩, g) ∧
        getSkipLength f ⟨g % 2 ^ f.pbits, 0, g / 2 ^ f.pbits⟩ = g)) ∧
    ((maxLongLength f < L →
        beLongNode f L v = (⟨f.pmax, f.lmax, v⟩, maxLongLength f)) ∧
      (L ≤ maxLongLength f →
        beLongNode f L v = (⟨L / 2 ^ f.lbits, L % 2 ^ f.lbits, v⟩, L) ∧
        getLongLength f ⟨L / 2 ^ f.lbits, L % 2 ^ f.lbits, v⟩ = L)) := by
  refine ⟨⟨fun h1 => ?_, fun h1 => ⟨?_, ?_⟩⟩, fun h2 => ?_, fun h2 => ⟨?_, ?_⟩⟩ <;>
    cases f <;>
    simp only [beSkipNode, beLongNode, getSkipLength, getLongLength,
      maxSkipLength, maxLongLength, Fmt.pmax, Fmt.lmax, Fmt.pbits,
      Fmt.lbits] at * <;>
    (try split_ifs) <;>
    (try simp only [Option.some.injEq, Prod.mk.injEq, PNode.mk.injEq]) <;>
    (try norm_num at *) <;>
    omega

/-- Witness for C5 at format `P8L8`, `totalGap = totalLen = 300`, `v = 7`. -/
theorem skip_and_long_node_encodings_witness :
    Fmt.P8L8.pmax < 300 ∧ Fmt.P8L8.lmax < 300 ∧
    (beSkipNode .P8L8 300 = some (⟨300 % 2 ^ 8, 0, 300 / 2 ^ 8⟩, 300) ∧
      getSkipLength .P8L8 ⟨300 % 2 ^ 8, 0, 300 / 2 ^ 8⟩ = 300) :=
  ⟨by decide, by decide,
    (skip_and_long_node_encodings .P8L8 300 300 7 (by decide) (by decide)).1.2
      (by decide)⟩

theorem takeRun_shift (v : Nat) (xs : List Nat) :
    ∀ acc, takeRun v acc xs = acc + takeRun v 0 xs := by
  induction xs with
  | nil => intro acc; simp [takeRun]
  | cons x xs ih =>
    intro acc
    by_cases h : x = v
    · simp only [takeRun, if_pos h]
      rw [ih (acc + 1), ih 1]
      omega
    · simp [takeRun, h]

theorem takeRun_take (v : Nat) (xs : List Nat) :
    xs.take (takeRun v 0 xs) = List.replicate (takeRun v 0 xs) v := by
  induction xs with
  | nil => simp [takeRun]
  | cons x xs ih =>
    by_cases h : x = v
    · simp only [takeRun, if_pos h, takeRun_shift v xs 1]
      rw [Nat.add_comm 1 (takeRun v 0 xs), List.take_succ_cons, ih, h,
        List.replicate_succ]
    · simp [takeRun, h]

/-- The position-order invariant of the collector's output, expressed against
the data: starting from tail cursor `t`, each run begins `pre` bytes after the
previous tail (so runs appear in position order) and covers `length` copies of
`value` in the data. -/
def RunsOk (data : List Nat) : Nat → List Run → Prop
  | _, [] => True
  | t, r :: rs =>
    (data.drop (t + r.pre)).take r.length = List.replicate r.length r.value ∧
      RunsOk data (t + r.pre + r.length) rs

theorem collectRunsFuel_sound (data : List Nat) : ∀ (fuel : Nat)
    (rest : List Nat) (pos prevTail : Nat),
    rest.length < fuel → prevTail ≤ pos → rest = data.drop pos →
    (∀ r ∈ collectRunsFuel fuel pos prevTail rest, 3 < r.length) ∧
      RunsOk data prevTail (collectRunsFuel fuel pos prevTail rest) := by
  intro fuel
  induction fuel with
  | zero => intro rest pos prevTail h; omega
  | succ fuel ih =>
    intro rest pos prevTail hf hpt hrest
    match rest, hrest with
    | [], _ => simp [collectRunsFuel, RunsOk]
    | x :: xs, hrest =>
      have hlen1 : takeRun x 1 xs = takeRun x 0 xs + 1 := by
        rw [takeRun_shift x xs 1]; omega
      have htake : (x :: xs).take (takeRun x 1 xs)
          = List.replicate (takeRun x 1 xs) x := by
        rw [hlen1, List.take_succ_cons, takeRun_take, List.replicate_succ]
      have hdropeq : xs.drop (takeRun x 1 xs - 1)
          = data.drop (pos + takeRun x 1 xs) := by
        have : xs.drop (takeRun x 1 xs - 1) = (x :: xs).drop (takeRun x 1 xs) := by
          rw [hlen1]; simp
        rw [this, hrest, List.drop_drop]
      have hdlen : (xs.drop (takeRun x 1 xs - 1)).length < fuel := by
        have h1 : (x :: xs).length < fuel + 1 := hf
        simp only [List.length_drop, List.length_cons] at *
        omega
      simp only [collectRunsFuel]
      by_cases hrec : Fmt.P8L8.size < takeRun x 1 xs
      · rw [if_pos hrec]
        have hrec2 := ih (xs.drop (takeRun x 1 xs - 1)) (pos + takeRun x 1 xs)
          (pos + takeRun x 1 xs) hdlen le_rfl hdropeq
        refine ⟨?_, ?_⟩
        · intro r hr
          rcases List.mem_cons.mp hr with h | h
          · rw [h]
            simpa [Fmt.size, Fmt.P8L8] using hrec
          · exact hrec2.1 r h
        · refine ⟨?_, ?_⟩
          · have hpp : prevTail + (pos - prevTail) = pos := by omega
            rw [hpp, ← hrest, htake]
          · have hpp : prevTail + (pos - prevTail) + takeRun x 1 xs
                = pos + takeRun x 1 xs := by omega
            rw [hpp]
            exact hrec2.2
      · rw [if_neg hrec]
        exact ih (xs.drop (takeRun x 1 xs - 1)) (pos + takeRun x 1 xs)
          prevTail hdlen (by omega) hdropeq

/-- Claim C6: every run the collector records is strictly longer than
`sizeof(Node8x8) = 3` bytes, and — `RunsOk` with initial tail cursor 0 — every
recorded run's `prefix` is its start position minus the previous recorded
run's tail, with the runs appearing in position order and covering actual
constant-byte spans of the input. -/
theorem collectRuns_sound (data : List Nat) :
    (∀ r ∈ collectRuns data, 3 < r.length) ∧
      RunsOk data 0 (collectRuns data) := by
  have := collectRunsFuel_sound data (data.length + 1) data 0 0
    (by omega) le_rfl (by simp)
  simpa [collectRuns] using this

/-- Witness for C6 on the concrete input `[9, 9, 9, 9, 9]`, whose collected
run list is `[{pre 0, length 5, value 9}]`. -/
theorem collectRuns_sound_witness :
    (3 : Nat) < (Run.mk 0 5 9).length :=
  (collectRuns_sound [9, 9, 9, 9, 9]).1 ⟨0, 5, 9⟩ (by decide)

theorem skipLoopF_spec (f : Fmt) : ∀ (fuel p : Nat), p < fuel →
    (skipLoopF f fuel p).1 =
      (if f.pmax < p % maxSkipLength f then 0 else p % maxSkipLength f) ∧
    (skipLoopF f fuel p).2.length =
      p / maxSkipLength f + (if f.pmax < p % maxSkipLength f then 1 else 0) ∧
    ∀ n ∈ (skipLoopF f fuel p).2, n.length = 0 ∧ n.value ≠ 0 := by
  intro fuel
  induction fuel with
  | zero => intro p h; omega
  | succ fuel ih =>
    intro p hp
    have hS1 : 255 ≤ maxSkipLength f := by cases f <;> decide
    have hPS : f.pmax < maxSkipLength f := by cases f <;> decide
    by_cases h1 : f.pmax < p
    · have hnotlt : ¬ p < f.pmax := by omega
      by_cases h2 : maxSkipLength f < p
      · have hstep : skipLoopF f (fuel + 1) p =
            ((skipLoopF f fuel (p - maxSkipLength f)).1,
              ⟨f.pmax, 0, 255⟩ :: (skipLoopF f fuel (p - maxSkipLength f)).2) := by
          simp [skipLoopF, h1, beSkipNode, hnotlt, h2]
        obtain ⟨ihr, ihc, ihm⟩ := ih (p - maxSkipLength f) (by omega)
        have ht : p = (p - maxSkipLength f) + maxSkipLength f := by omega
        have hmod : p % maxSkipLength f
            = (p - maxSkipLength f) % maxSkipLength f := by
          conv_lhs => rw [ht]
          rw [Nat.add_mod_right]
        have hdiv : p / maxSkipLength f
            = (p - maxSkipLength f) / maxSkipLength f + 1 := by
          conv_lhs => rw [ht]
          rw [Nat.add_div_right _ (by omega : 0 < maxSkipLength f)]
        rw [hstep]
        refine ⟨by rw [hmod]; exact ihr, ?_, ?_⟩
        · simp only [List.length_cons, ihc, hmod, hdiv]
          omega
        · intro n hn
          rcases List.mem_cons.mp hn with h | h
          · rw [h]; exact ⟨rfl, by simp⟩
          · exact ihm n h
      · have hstep : skipLoopF f (fuel + 1) p =
            ((skipLoopF f fuel (p - p)).1,
              ⟨p % 2 ^ f.pbits, 0, p / 2 ^ f.pbits % 256⟩ ::
                (skipLoopF f fuel (p - p)).2) := by
          simp [skipLoopF, h1, beSkipNode, hnotlt, h2]
        have hz : p - p = 0 := by omega
        obtain ⟨ihr, ihc, ihm⟩ := ih 0 (by omega)
        rw [hstep, hz]
        have hzr : (skipLoopF f fuel 0).1 = 0 := by
          rw [ihr, Nat.zero_mod]
          simp
        have hzc : (skipLoopF f fuel 0).2.length = 0 := by
          rw [ihc, Nat.zero_mod, Nat.zero_div]
          simp
        by_cases hps : p = maxSkipLength f
        · have hm : p % maxSkipLength f = 0 := by rw [hps, Nat.mod_self]
          have hd : p / maxSkipLength f = 1 := by rw [hps, Nat.div_self]; omega
          refine ⟨by rw [hzr, hm]; simp, ?_, ?_⟩
          · simp only [List.length_cons, hzc, hm, hd]
            simp
          · intro n hn
            rcases List.mem_cons.mp hn with h | h
            · rw [h]
              refine ⟨rfl, ?_⟩
              have : p / 2 ^ f.pbits % 256 ≠ 0 := by
                cases f <;>
                  simp only [maxSkipLength, Fmt.pmax, Fmt.pbits] at h1 h2 ⊢ <;>
                  omega
              exact this
            · rw [List.length_eq_zero.mp hzc] at h
              exact absurd h (List.not_mem_nil n)
        · have hlt : p < maxSkipLength f := by omega
          have hm : p % maxSkipLength f = p := Nat.mod_eq_of_lt hlt
          have hd : p / maxSkipLength f = 0 := Nat.div_eq_of_lt hlt
          refine ⟨by rw [hzr, hm]; simp [h1], ?_, ?_⟩
          · simp only [List.length_cons, hzc, hm, hd]
            simp [h1]
          · intro n hn
            rcases List.mem_cons.mp hn with h | h
            · rw [h]
              refine ⟨rfl, ?_⟩
              have : p / 2 ^ f.pbits % 256 ≠ 0 := by
                cases f <;>
                  simp only [maxSkipLength, Fmt.pmax, Fmt.pbits] at h1 h2 ⊢ <;>
                  omega
              exact this
            · rw [List.length_eq_zero.mp hzc] at h
              exact absurd h (List.not_mem_nil n)
    · have hstep : skipLoopF f (fuel + 1) p = (p, []) := by
        simp [skipLoopF, h1]
      have hlt : p < maxSkipLength f := by omega
      rw [hstep, Nat.mod_eq_of_lt hlt, Nat.div_eq_of_lt hlt]
      refine ⟨by simp [h1], by simp [h1], by simp⟩

theorem absorbed_cons_false (f : Fmt) (n : PNode) (l : List PNode) :
    absorbedBytes f false (n :: l) =
      n.length + absorbedBytes f (n.length == 0 && n.value == 0) l := rfl

theorem wf_cons_not_signal (f : Fmt) (n : PNode) (l : List PNode)
    (h : (n.length == 0 && n.value == 0) = false) :
    tableWellFormed (n :: l) = tableWellFormed l := by
  rw [tableWellFormed.eq_def]
  simp [h]

theorem absorbed_append_skips (f : Fmt) (rest : List PNode) : ∀ ns : List PNode,
    (∀ n ∈ ns, n.length = 0 ∧ n.value ≠ 0) →
    absorbedBytes f false (ns ++ rest) = absorbedBytes f false rest := by
  intro ns
  induction ns with
  | nil => intro _; simp
  | cons n ns ih =>
    intro h
    obtain ⟨hl, hv⟩ := h n (List.mem_cons_self n ns)
    have hb : (n.length == 0 && n.value == 0) = false := by simp [hv]
    rw [List.cons_append, absorbed_cons_false, hb, hl,
      ih (fun m hm => h m (List.mem_cons_of_mem n hm))]
    omega

theorem wf_append_skips (f : Fmt) (rest : List PNode) : ∀ ns : List PNode,
    (∀ n ∈ ns, n.length = 0 ∧ n.value ≠ 0) →
    tableWellFormed (ns ++ rest) = tableWellFormed rest := by
  intro ns
  induction ns with
  | nil => intro _; simp
  | cons n ns ih =>
    intro h
    obtain ⟨hl, hv⟩ := h n (List.mem_cons_self n ns)
    have hb : (n.length == 0 && n.value == 0) = false := by simp [hv]
    rw [List.cons_append, wf_cons_not_signal f _ _ hb,
      ih (fun m hm => h m (List.mem_cons_of_mem n hm))]

theorem absorbed_signal_long (f : Fmt) (p : Nat) (m : PNode) (l : List PNode) :
    absorbedBytes f false (beSignalNode f p :: m :: l) =
      getLongLength f m + absorbedBytes f false l := by
  have h : absorbedBytes f false (beSignalNode f p :: m :: l)
      = 0 + (getLongLength f m + absorbedBytes f false l) := rfl
  rw [h, Nat.zero_add]

theorem wf_signal_long (f : Fmt) (p : Nat) (m : PNode) (l : List PNode) :
    tableWellFormed (beSignalNode f p :: m :: l) = tableWellFormed l := rfl

theorem longLoopF_spec (f : Fmt) : ∀ (fuel len p v : Nat), len < fuel →
    (longLoopF f fuel p len v).1 =
      (if f.lmax < len % maxLongLength f then 0 else len % maxLongLength f) ∧
    (longLoopF f fuel p len v).2.length =
      2 * (len / maxLongLength f) +
        (if f.lmax < len % maxLongLength f then 2 else 0) ∧
    (∀ rest, absorbedBytes f false ((longLoopF f fuel p len v).2 ++ rest) =
      (len - (longLoopF f fuel p len v).1) + absorbedBytes f false rest) ∧
    (∀ rest, tableWellFormed ((longLoopF f fuel p len v).2 ++ rest) =
      tableWellFormed rest) := by
  intro fuel
  induction fuel with
  | zero => intro len p v h; omega
  | succ fuel ih =>
    intro len p v hf
    have hL255 : 255 ≤ f.lmax := by cases f <;> decide
    have hLM : f.lmax < maxLongLength f := by cases f <;> decide
    by_cases h1 : f.lmax < len
    · by_cases h2 : maxLongLength f < len
      · have hstep : longLoopF f (fuel + 1) p len v =
            ((longLoopF f fuel p (len - maxLongLength f) v).1,
              beSignalNode f (p % 256) :: ⟨f.pmax, f.lmax, v⟩ ::
                (longLoopF f fuel p (len - maxLongLength f) v).2) := by
          simp [longLoopF, h1, beLongNode, h2]
        obtain ⟨ihr, ihc, iha, ihw⟩ := ih (len - maxLongLength f) p v (by omega)
        have ht : len = (len - maxLongLength f) + maxLongLength f := by omega
        have hmod : len % maxLongLength f
            = (len - maxLongLength f) % maxLongLength f := by
          conv_lhs => rw [ht]
          rw [Nat.add_mod_right]
        have hdiv : len / maxLongLength f
            = (len - maxLongLength f) / maxLongLength f + 1 := by
          conv_lhs => rw [ht]
          rw [Nat.add_div_right _ (by omega : 0 < maxLongLength f)]
        have hr1 : (longLoopF f fuel p (len - maxLongLength f) v).1
            ≤ len - maxLongLength f := by
          rw [ihr]
          split
          · omega
          · exact Nat.mod_le _ _
        rw [hstep]
        refine ⟨by rw [hmod]; exact ihr, ?_, ?_, ?_⟩
        · simp only [List.length_cons, ihc, hmod, hdiv]
          omega
        · intro rest
          rw [List.cons_append, List.cons_append, absorbed_signal_long,
            iha rest]
          have hsat : getLongLength f ⟨f.pmax, f.lmax, v⟩ = maxLongLength f := rfl
          rw [hsat]
          omega
        · intro rest
          rw [List.cons_append, List.cons_append, wf_signal_long, ihw rest]
      · have hstep : longLoopF f (fuel + 1) p len v =
            ((longLoopF f fuel p (len - len) v).1,
              beSignalNode f (p % 256) ::
                ⟨len / 2 ^ f.lbits % 2 ^ f.pbits, len % 2 ^ f.lbits, v⟩ ::
                (longLoopF f fuel p (len - len) v).2) := by
          simp [longLoopF, h1, beLongNode, h2]
        have hz : len - len = 0 := by omega
        obtain ⟨ihr, ihc, iha, ihw⟩ := ih 0 p v (by omega)
        have hzr : (longLoopF f fuel p 0 v).1 = 0 := by
          rw [ihr, Nat.zero_mod]
          simp
        have hzc : (longLoopF f fuel p 0 v).2.length = 0 := by
          rw [ihc, Nat.zero_mod, Nat.zero_div]
          simp
        have hznil : (longLoopF f fuel p 0 v).2 = [] :=
          List.length_eq_zero.mp hzc
        have hlong : getLongLength f
            ⟨len / 2 ^ f.lbits % 2 ^ f.pbits, len % 2 ^ f.lbits, v⟩ = len := by
          simp only [getLongLength]
          cases f <;>
            simp only [maxLongLength, Fmt.lmax, Fmt.pmax, Fmt.lbits,
              Fmt.pbits] at h2 ⊢ <;>
            omega
        rw [hstep, hz]
        have hresid : (longLoopF f fuel p 0 v).1 =
            (if f.lmax < len % maxLongLength f then 0
              else len % maxLongLength f) := by
          rw [hzr]
          by_cases hls : len = maxLongLength f
          · rw [hls, Nat.mod_self]
            simp
          · rw [Nat.mod_eq_of_lt (by omega)]
            simp [h1]
        refine ⟨hresid, ?_, ?_, ?_⟩
        · simp only [List.length_cons, hzc]
          by_cases hls : len = maxLongLength f
          · rw [hls, Nat.mod_self, Nat.div_self (by omega)]
            simp
          · rw [Nat.mod_eq_of_lt (by omega), Nat.div_eq_of_lt (by omega)]
            simp [h1]
        · intro rest
          rw [List.cons_append, List.cons_append, absorbed_signal_long,
            hznil, List.nil_append, hlong, hzr]
          omega
        · intro rest
          rw [List.cons_append, List.cons_append, wf_signal_long, hznil,
            List.nil_append]
    · have hstep : longLoopF f (fuel + 1) p len v = (len, []) := by
        simp [longLoopF, h1]
      have hlt : len < maxLongLength f := by omega
      rw [hstep, Nat.mod_eq_of_lt hlt, Nat.div_eq_of_lt hlt]
      refine ⟨by simp [h1], by simp [h1], ?_, by simp⟩
      intro rest
      simp

set_option maxHeartbeats 1000000

theorem absorbed_cons_std (f : Fmt) (n : PNode) (l : List PNode)
    (h : (n.length == 0 && n.value == 0) = false) :
    absorbedBytes f false (n :: l) = n.length + absorbedBytes f false l := by
  rw [absorbed_cons_false, h]

theorem parseRun_spec (f : Fmt) (run : Run) :
    calculateRunEfficiencyByFormat f run =
      (absorbedBytes f false (parseRun f run) : Int) -
        (parseRun f run).length * f.size ∧
    (∀ rest, absorbedBytes f false (parseRun f run ++ rest)
      = absorbedBytes f false (parseRun f run) + absorbedBytes f false rest) ∧
    (∀ rest, tableWellFormed (parseRun f run ++ rest) = tableWellFormed rest) := by
  have h2p : 0 < 2 ^ f.pbits := pow_pos (by norm_num) _
  have h2l : 0 < 2 ^ f.lbits := pow_pos (by norm_num) _
  have hpmax : f.pmax < 2 ^ f.pbits := by simp only [Fmt.pmax]; omega
  have hlmax : f.lmax < 2 ^ f.lbits := by simp only [Fmt.lmax]; omega
  have hsize1 : 1 ≤ f.size := by simp only [Fmt.size]; omega
  have hPS : f.pmax < maxSkipLength f := by cases f <;> decide
  have hLG : f.lmax < maxLongLength f := by cases f <;> decide
  obtain ⟨hs1, hsc, hsm⟩ := skipLoopF_spec f (run.pre + 1) run.pre (by omega)
  obtain ⟨hl1, hlc, hla, hlw⟩ := longLoopF_spec f (run.length + 1) run.length
    (skipLoopF f (run.pre + 1) run.pre).1 run.value (by omega)
  set s := skipLoopF f (run.pre + 1) run.pre with hsdef
  set l := longLoopF f (run.length + 1) s.1 run.length run.value with hldef
  have hpr : parseRun f run = s.2 ++ l.2 ++
      (if f.size < l.1 then [⟨s.1 % 2 ^ f.pbits, l.1 % 2 ^ f.lbits, run.value⟩]
        else []) := rfl
  have hstp : s.1 ≤ f.pmax := by rw [hs1]; split <;> omega
  have hstl : l.1 ≤ f.lmax := by
    rw [hl1]
    split <;> omega
  have hmodl : l.1 % 2 ^ f.lbits = l.1 := Nat.mod_eq_of_lt (by omega)
  have habsX : ∀ rest, absorbedBytes f false
      ((if f.size < l.1 then
          [(⟨s.1 % 2 ^ f.pbits, l.1 % 2 ^ f.lbits, run.value⟩ : PNode)]
        else []) ++ rest)
      = (if f.size < l.1 then l.1 else 0) + absorbedBytes f false rest := by
    intro rest
    by_cases hstd : f.size < l.1
    · have hne : l.1 ≠ 0 := by omega
      have hb : ((⟨s.1 % 2 ^ f.pbits, l.1 % 2 ^ f.lbits, run.value⟩ :
          PNode).length == 0 && (⟨s.1 % 2 ^ f.pbits, l.1 % 2 ^ f.lbits,
          run.value⟩ : PNode).value == 0) = false := by
        simp [hmodl, hne]
      rw [if_pos hstd, if_pos hstd, List.singleton_append,
        absorbed_cons_std f _ rest hb]
      dsimp only
      rw [hmodl]
    · rw [if_neg hstd, if_neg hstd, List.nil_append, Nat.zero_add]
  have hwfX : ∀ rest, tableWellFormed
      ((if f.size < l.1 then
          [(⟨s.1 % 2 ^ f.pbits, l.1 % 2 ^ f.lbits, run.value⟩ : PNode)]
        else []) ++ rest)
      = tableWellFormed rest := by
    intro rest
    by_cases hstd : f.size < l.1
    · have hne : l.1 ≠ 0 := by omega
      have hb : ((⟨s.1 % 2 ^ f.pbits, l.1 % 2 ^ f.lbits, run.value⟩ :
          PNode).length == 0 && (⟨s.1 % 2 ^ f.pbits, l.1 % 2 ^ f.lbits,
          run.value⟩ : PNode).value == 0) = false := by
        simp [hmodl, hne]
      rw [if_pos hstd, List.singleton_append, wf_cons_not_signal f _ rest hb]
    · rw [if_neg hstd, List.nil_append]
  have habs : ∀ rest, absorbedBytes f false (parseRun f run ++ rest)
      = ((run.length - l.1) + if f.size < l.1 then l.1 else 0)
        + absorbedBytes f false rest := by
    intro rest
    rw [hpr, List.append_assoc, List.append_assoc,
      absorbed_append_skips f _ s.2 hsm, hla, habsX]
    omega
  have habs0 : absorbedBytes f false (parseRun f run)
      = (run.length - l.1) + if f.size < l.1 then l.1 else 0 := by
    have h0 := habs []
    rw [List.append_nil] at h0
    have hnil : absorbedBytes f false ([] : List PNode) = 0 := rfl
    omega
  have hwf : ∀ rest, tableWellFormed (parseRun f run ++ rest)
      = tableWellFormed rest := by
    intro rest
    rw [hpr, List.append_assoc, List.append_assoc,
      wf_append_skips f _ s.2 hsm, hlw, hwfX]
  have hcnt : (parseRun f run).length
      = s.2.length + l.2.length + (if f.size < l.1 then 1 else 0) := by
    rw [hpr]
    by_cases hstd : f.size < l.1 <;>
      simp [hstd, List.length_append] <;>
      omega
  refine ⟨?_, fun rest => by rw [habs rest, habs0], hwf⟩
  have hskips : s.2.length =
      (if f.pmax < run.pre then
        run.pre / maxSkipLength f +
          (if f.pmax < run.pre % maxSkipLength f then 1 else 0)
      else 0) := by
    rw [hsc]
    by_cases hp : f.pmax < run.pre
    · rw [if_pos hp]
    · rw [if_neg hp, Nat.mod_eq_of_lt (by omega), Nat.div_eq_of_lt (by omega)]
      simp only [Nat.zero_add]
      rw [if_neg hp]
  have hdm : maxLongLength f * (run.length / maxLongLength f)
      + run.length % maxLongLength f = run.length := Nat.div_add_mod _ _
  simp only [calculateRunEfficiencyByFormat, longNodeMax_eq_maxLongLength]
  rw [← hskips]
  by_cases hlen : f.lmax < run.length
  · simp only [if_pos hlen]
    by_cases hrem : f.lmax < run.length % maxLongLength f
    · simp only [if_pos hrem]
      have hl1v : l.1 = 0 := by rw [hl1, if_pos hrem]
      have hz : run.length - run.length / maxLongLength f * maxLongLength f
          - run.length % maxLongLength f = 0 := by
        have := hdm
        have hc : run.length / maxLongLength f * maxLongLength f
            = maxLongLength f * (run.length / maxLongLength f) :=
          Nat.mul_comm _ _
        omega
      rw [hz]
      rw [if_neg (by omega : ¬ f.size < 0)]
      have ha : run.length / maxLongLength f * maxLongLength f
          + run.length % maxLongLength f
          = absorbedBytes f false (parseRun f run) := by
        rw [habs0, hl1v, if_neg (by omega : ¬ f.size < 0)]
        have hc : run.length / maxLongLength f * maxLongLength f
            = maxLongLength f * (run.length / maxLongLength f) :=
          Nat.mul_comm _ _
        omega
      have hb : s.2.length + 2 * (run.length / maxLongLength f) + 2
          = (parseRun f run).length := by
        rw [hcnt, hl1v, if_neg (by omega : ¬ f.size < 0), hlc, if_pos hrem]
        omega
      rw [ha, hb]
    · simp only [if_neg hrem]
      have hl1v : l.1 = run.length % maxLongLength f := by
        rw [hl1, if_neg hrem]
      have hresid : run.length - run.length / maxLongLength f * maxLongLength f
          = run.length % maxLongLength f := by
        have hc : run.length / maxLongLength f * maxLongLength f
            = maxLongLength f * (run.length / maxLongLength f) :=
          Nat.mul_comm _ _
        omega
      rw [hresid]
      by_cases hstd : f.size < run.length % maxLongLength f
      · rw [if_pos hstd]
        have ha : run.length / maxLongLength f * maxLongLength f
            + run.length % maxLongLength f
            = absorbedBytes f false (parseRun f run) := by
          rw [habs0, hl1v, if_pos hstd]
          have hc : run.length / maxLongLength f * maxLongLength f
              = maxLongLength f * (run.length / maxLongLength f) :=
            Nat.mul_comm _ _
          omega
        have hb : s.2.length + 2 * (run.length / maxLongLength f) + 1
            = (parseRun f run).length := by
          rw [hcnt, hl1v, if_pos hstd, hlc, if_neg hrem]
          omega
        rw [ha, hb]
      · rw [if_neg hstd]
        have ha : run.length / maxLongLength f * maxLongLength f
            = absorbedBytes f false (parseRun f run) := by
          rw [habs0, hl1v, if_neg hstd]
          have hc : run.length / maxLongLength f * maxLongLength f
              = maxLongLength f * (run.length / maxLongLength f) :=
            Nat.mul_comm _ _
          omega
        have hb : s.2.length + 2 * (run.length / maxLongLength f)
            = (parseRun f run).length := by
          rw [hcnt, hl1v, if_neg hstd, hlc, if_neg hrem]
          omega
        rw [ha, hb]
  · simp only [if_neg hlen]
    have hml : run.length % maxLongLength f = run.length :=
      Nat.mod_eq_of_lt (by omega)
    have hl1v : l.1 = run.length := by
      rw [hl1, hml, if_neg hlen]
    have hlcv : l.2.length = 0 := by
      rw [hlc, hml, Nat.div_eq_of_lt (by omega), if_neg hlen]
    by_cases hstd : f.size < run.length
    · rw [if_pos hstd]
      have ha : (0 : Nat) + run.length
          = absorbedBytes f false (parseRun f run) := by
        rw [habs0, hl1v, if_pos hstd]
        omega
      have hb : s.2.length + 1 = (parseRun f run).length := by
        rw [hcnt, hl1v, if_pos hstd, hlcv]
      rw [ha, hb]
    · rw [if_neg hstd]
      have ha : absorbedBytes f false (parseRun f run) = 0 := by
        rw [habs0, hl1v, if_neg hstd]
        omega
      have hb : (parseRun f run).length = s.2.length := by
        rw [hcnt, hl1v, if_neg hstd, hlcv]
        omega
      rw [ha, hb]

/-- Claim C2: for every format and every run list, the analytic saving of the
efficiency estimator equals the run bytes the materialized node table actually
encodes (the `measureEfficiency` walk of `main.cpp`) minus the byte length of
the node vector. -/
theorem estimator_agreement (f : Fmt) (runs : List Run) :
    calculateFormatEfficiency f runs =
      (absorbedBytes f false (parseRunSet f runs) : Int) -
        (parseRunSet f runs).length * f.size := by
  induction runs with
  | nil => simp [calculateFormatEfficiency, parseRunSet, absorbedBytes]
  | cons r rs ih =>
    obtain ⟨h1, h2, _⟩ := parseRun_spec f r
    show calculateRunEfficiencyByFormat f r + calculateFormatEfficiency f rs = _
    rw [show parseRunSet f (r :: rs) = parseRun f r ++ parseRunSet f rs from rfl,
      h2 (parseRunSet f rs), List.length_append, ih, h1]
    push_cast
    ring

theorem parseRunSet_wf (f : Fmt) (runs : List Run) :
    tableWellFormed (parseRunSet f runs) = true := by
  induction runs with
  | nil => rfl
  | cons r rs ih =>
    show tableWellFormed (parseRun f r ++ parseRunSet f rs) = true
    rw [(parseRun_spec f r).2.2, ih]

theorem extractTableGo_skip (f : Fmt) (acc : Nat) (n : PNode)
    (rest : List PNode) (hl : n.length = 0) (hv : ¬ n.value = 0) :
    extractTableGo f acc (n :: rest) =
      extractTableGo f (acc + getSkipLength f n) rest := by
  rw [extractTableGo.eq_def]
  simp only [if_pos hl, if_neg hv]

theorem extractTableGo_std (f : Fmt) (acc : Nat) (n : PNode)
    (rest : List PNode) (hl : ¬ n.length = 0) :
    extractTableGo f acc (n :: rest) =
      (extractTableGo f 0 rest).map
        (fun rs => ⟨acc + n.pre, n.length, n.value⟩ :: rs) := by
  rw [extractTableGo.eq_def]
  simp only [if_neg hl]

theorem extractTableGo_signal (f : Fmt) (acc : Nat) (n m : PNode)
    (rest' : List PNode) (hl : n.length = 0) (hv : n.value = 0) :
    extractTableGo f acc (n :: m :: rest') =
      (extractTableGo f 0 rest').map
        (fun rs => ⟨acc + n.pre, getLongLength f m, m.value⟩ :: rs) := by
  rw [extractTableGo.eq_def]
  simp only [if_pos hl, if_pos hv]

theorem extractTableGo_isSome (f : Fmt) : ∀ (k : Nat) (ns : List PNode)
    (acc : Nat), ns.length ≤ k → tableWellFormed ns = true →
    (extractTableGo f acc ns).isSome = true := by
  intro k
  induction k with
  | zero =>
    intro ns acc hlen _
    have hnil : ns = [] := List.length_eq_zero.mp (Nat.le_zero.mp hlen)
    rw [hnil]
    rfl
  | succ k ih =>
    intro ns acc hlen hwf
    cases ns with
    | nil => rfl
    | cons n rest =>
      by_cases hl : n.length = 0
      · by_cases hv : n.value = 0
        · cases rest with
          | nil =>
            exfalso
            rw [tableWellFormed.eq_2] at hwf
            simp [hl, hv] at hwf
          | cons m rest' =>
            have hwf' : tableWellFormed rest' = true := by
              rw [tableWellFormed.eq_3] at hwf
              simpa [hl, hv] using hwf
            have hrec := ih rest' 0 (by
              simp only [List.length_cons] at hlen ⊢
              omega) hwf'
            rw [extractTableGo_signal f acc n m rest' hl hv]
            rcases Option.isSome_iff_exists.mp hrec with ⟨val, hval⟩
            rw [hval]
            rfl
        · have hwf' : tableWellFormed rest = true := by
            rw [wf_cons_not_signal f n rest (by simp [hv])] at hwf
            exact hwf
          rw [extractTableGo_skip f acc n rest hl hv]
          exact ih rest _ (by simp only [List.length_cons] at hlen; omega) hwf'
      · have hwf' : tableWellFormed rest = true := by
          rw [wf_cons_not_signal f n rest (by simp [hl])] at hwf
          exact hwf
        have hrec := ih rest 0 (by simp only [List.length_cons] at hlen; omega)
          hwf'
        rw [extractTableGo_std f acc n rest hl]
        rcases Option.isSome_iff_exists.mp hrec with ⟨val, hval⟩
        rw [hval]
        rfl

/-- Counterexample to claim C10 as frozen: for format `P8L8` and the single
run `{prefix 0, length 512, value 0}` (as collected from 512 zero bytes), the
builder's table is a signal node followed by a long node `(2, 0, 0)` — and
that last record has `length = 0` and `value = 0`, so a record of the shape
the claim calls a Signal *is* the last record of the table. -/
theorem signal_shaped_record_last :
    parseRunSet .P8L8 [⟨0, 512, 0⟩] = [⟨0, 0, 0⟩, ⟨2, 0, 0⟩] ∧
    (⟨2, 0, 0⟩ : PNode).length = 0 ∧ (⟨2, 0, 0⟩ : PNode).value = 0 ∧
    (parseRunSet .P8L8 [⟨0, 512, 0⟩]).getLast? = some ⟨2, 0, 0⟩ := by
  decide

/-- Claim C10 (amended): for every format and every run list, the table the
builder produces is well-formed for the reader's walk — every record the walk
interprets as a Signal (length 0, value 0 in reading position, not consumed
as a Long) is immediately followed by another record — and consequently
`extractTable`'s unconditional advance past a signal never dereferences the
end of the node sequence. -/
theorem signal_always_followed (f : Fmt) (runs : List Run) :
    tableWellFormed (parseRunSet f runs) = true ∧
    (extractTable f (parseRunSet f runs)).isSome = true :=
  ⟨parseRunSet_wf f runs,
    extractTableGo_isSome f (parseRunSet f runs).length (parseRunSet f runs) 0
      le_rfl (parseRunSet_wf f runs)⟩

/-- The run list exhibiting the `selectFormat` tie: P8L8 and P16L8 both save
exactly 18 bytes, strictly more than the other two formats. -/
def tieRuns : List Run := [⟨300, 10, 1⟩, ⟨0, 10, 1⟩, ⟨0, 10, 1⟩]

/-- Claim C4, divergence witness: the selection scan of `selectFormat` takes
whichever of the tied formats its `std::unordered_map` iteration happens to
visit first — visiting `P8L8` first returns `P8L8`, visiting `P16L8` first
returns `P16L8`, both with the same saving 18, so the tie-break the claim
specifies (P8L8 before P16L8) is not guaranteed by the code. -/
theorem selectFormat_order_dependent :
    calculateFormatEfficiency .P8L8 tieRuns = 18 ∧
    calculateFormatEfficiency .P8L16 tieRuns = 14 ∧
    calculateFormatEfficiency .P16L8 tieRuns = 18 ∧
    calculateFormatEfficiency .P16L16 tieRuns = 15 ∧
    selectScan tieRuns [.P8L8, .P8L16, .P16L8, .P16L16] =
      (.fmt .P8L8, 18) ∧
    selectScan tieRuns [.P16L8, .P8L16, .P8L8, .P16L16] =
      (.fmt .P16L8, 18) := by
  decide

theorem decodeFmt_eq_none (b : Nat)
    (h : b ∉ ([0x11, 0x12, 0x21, 0x22] : List Nat)) : decodeFmt b = none := by
  simp only [List.mem_cons, List.not_mem_nil, or_false, not_or] at h
  simp only [decodeFmt]
  split_ifs <;> first
    | rfl
    | (exfalso; omega)

/-- Claim C8: inflate fails with `BadMagic` exactly when the first three bytes
of the file are not `'R','L','E'`, and — when the magic is right — fails with
`BadFormat` whenever the format byte is not one of the four known values
`{0x11, 0x12, 0x21, 0x22}`.  Both failures occur in the model before any
output is produced (the error is returned with no output bytes; in the source
both throws happen before the output file is created). -/
theorem inflate_header_validation (file : List Nat) :
    (inflateModel file = some (.error .BadMagic) ↔
      file.take 3 ≠ [82, 76, 69]) ∧
    (file.take 3 = [82, 76, 69] →
      file.getD 3 0 % 256 ∉ ([0x11, 0x12, 0x21, 0x22] : List Nat) →
      inflateModel file = some (.error .BadFormat)) := by
  refine ⟨⟨fun h => ?_, fun h => ?_⟩, fun hmagic hfmt => ?_⟩
  · by_contra hn
    unfold inflateModel at h
    rw [if_pos hn] at h
    cases hdf : decodeFmt (file.getD 3 0 % 256) with
    | none =>
      rw [hdf] at h
      simp at h
    | some f =>
      rw [hdf] at h
      dsimp only at h
      cases het : extractTable f
          (parseNodes f (file.drop 16) (leNat file 12 4)) with
      | none =>
        rw [het] at h
        simp at h
      | some table =>
        rw [het] at h
        simp only at h
        split_ifs at h <;> simp at h
  · unfold inflateModel
    rw [if_neg h]
  · unfold inflateModel
    rw [if_pos hmagic, decodeFmt_eq_none _ hfmt]

/-- Witness for C8: a file whose first byte is `'X'` is rejected with
`BadMagic`; a file with good magic but format byte `0x63` is rejected with
`BadFormat`. -/
theorem inflate_header_validation_witness :
    inflateModel (88 :: List.replicate 20 0) = some (.error .BadMagic) ∧
    inflateModel ([82, 76, 69, 99] ++ List.replicate 20 0)
      = some (.error .BadFormat) :=
  ⟨(inflate_header_validation (88 :: List.replicate 20 0)).1.mpr (by decide),
    (inflate_header_validation ([82, 76, 69, 99] ++ List.replicate 20 0)).2
      (by decide) (by decide)⟩

/-- A syntactically valid compressed file whose single standard node
references input bytes past the end of the file: header (`P8L8`,
`decompressedLength = 15`, `tableNodeCount = 1`), node `(10, 5, 7)`, but only
2 verbatim bytes — the run's copy wants 10. -/
def oobFile : List Nat :=
  [82, 76, 69, 0x11] ++ leBytes 8 15 ++ leBytes 4 1 ++ [10, 5, 7] ++ [1, 2]

/-- Counterexample to claim C9 as frozen: on `oobFile` a node references
input bytes past the end of the compressed input (the verbatim copy starts at
offset 19 and wants 10 bytes of a 21-byte file), yet inflate does not fail
with `LengthMismatch`: the reader's input cursor ends past the file end, so
the trailing `std::copy(inIter, inView.end(), ...)` is entered with its first
iterator past its last and never terminates (modelled `none`). -/
theorem oob_node_not_lengthMismatch :
    extractTable .P8L8 (parseNodes .P8L8 (oobFile.drop 16) (leNat oobFile 12 4))
      = some [⟨10, 5, 7⟩] ∧
    oobFile.length = 21 ∧ 21 < 16 + 1 * Fmt.P8L8.size + 10 ∧
    inflateModel oobFile = none ∧
    inflateModel oobFile ≠ some (.error .LengthMismatch) := by
  decide

/-- Claim C9 (amended): when the header parses, the table converts, and the
runs' verbatim consumption stays within the input, inflate fails with
`LengthMismatch` exactly when the output cursor — run replay plus trailing
copy — does not land exactly on the header's `decompressedLength`; a node
that references input bytes past the end instead leaves the input cursor past
the end and the trailing copy never terminates (see
`oob_node_not_lengthMismatch`). -/
theorem lengthMismatch_exactly_on_cursor (file : List Nat) (f : Fmt)
    (table : List Run)
    (hmagic : file.take 3 = [82, 76, 69])
    (hfmt : decodeFmt (file.getD 3 0 % 256) = some f)
    (htab : extractTable f (parseNodes f (file.drop 16) (leNat file 12 4))
      = some table)
    (hin : (inflateRunsWalk file (16 + leNat file 12 4 * f.size) table).2
      ≤ file.length) :
    inflateModel file = some (.error .LengthMismatch) ↔
      ((inflateRunsWalk file (16 + leNat file 12 4 * f.size) table).1 ++
        file.drop
          (inflateRunsWalk file (16 + leNat file 12 4 * f.size) table).2).length
        ≠ leNat file 4 8 := by
  unfold inflateModel
  rw [if_pos hmagic, hfmt]
  dsimp only
  rw [htab]
  dsimp only
  rw [if_neg (by rw [listLen_eq]; omega), listLen_eq, Nat.zero_add]
  split_ifs with heq
  · simp [heq]
  · simpa using heq

/-- Witness for C9 (amended) on a valid empty-table file announcing
`decompressedLength = 5` with no verbatim bytes: the cursor lands at 0 ≠ 5,
so inflate fails with `LengthMismatch`. -/
theorem lengthMismatch_witness :
    inflateModel ([82, 76, 69, 0x11] ++ leBytes 8 5 ++ leBytes 4 0)
      = some (.error .LengthMismatch) :=
  (lengthMismatch_exactly_on_cursor
      ([82, 76, 69, 0x11] ++ leBytes 8 5 ++ leBytes 4 0) .P8L8 []
      (by decide) (by decide) (by decide) (by decide)).mpr (by decide)

/-- Tail-recursive byte-list comparison; equal to `=` by `listEqTR_iff`. -/
def listEqTR : List Nat → List Nat → Bool
  | [], [] => true
  | x :: xs, y :: ys => if x = y then listEqTR xs ys else false
  | _, _ => false

theorem listEqTR_iff : ∀ a b : List Nat, listEqTR a b = true ↔ a = b := by
  intro a
  induction a with
  | nil => intro b; cases b <;> simp [listEqTR]
  | cons x xs ih =>
    intro b
    cases b with
    | nil => simp [listEqTR]
    | cons y ys => by_cases h : x = y <;> simp [listEqTR, h, ih]

/-- A 256-byte verbatim filler with no run longer than one byte. -/
def pat256 : List Nat := (List.range 256).map (fun x => x % 3)

/-- The 1568-byte input that breaks the round trip: four blocks of 256
pattern bytes plus 8 bytes of 5, then 256 pattern bytes and 256 bytes of 7.
Its runs are 4 × `{pre 256, len 8, val 5}` and `{pre 256, len 256, val 7}`;
the strict efficiency maximum is `P16L8` with saving 264 (vs 263/255/248, so
the unordered-map iteration order cannot change the selection), and `P16L8`'s
signal node for the 256-run truncates the 16-bit prefix 256 through the
source's `(uint8_t)` cast in `parseRun`, desynchronizing the cursors. -/
def trickyInput : List Nat :=
  (pat256 ++ List.replicate 8 5) ++ (pat256 ++ List.replicate 8 5) ++
  (pat256 ++ List.replicate 8 5) ++ (pat256 ++ List.replicate 8 5) ++
  pat256 ++ List.replicate 256 7

/-- The bytes deflate writes for `trickyInput`. -/
def trickyCompressed : List Nat := okBytes (deflateModel trickyInput)

/-- The bytes inflate reconstructs from `trickyCompressed`. -/
def trickyInflated : List Nat := okBytes (inflateModel trickyCompressed)

/-- Claim C1 is violated by the code: deflate succeeds on `trickyInput`
(no `Inefficient`), inflate succeeds on its output, and the inflated bytes
differ from the input — at index 1056 the original pattern byte 0 comes back
as the run value 7. -/
theorem roundtrip_fails :
    deflateModel trickyInput = some (.ok trickyCompressed) ∧
    inflateModel trickyCompressed = some (.ok trickyInflated) ∧
    trickyInflated.getD 1056 0 = 7 ∧ trickyInput.getD 1056 0 = 0 ∧
    trickyInflated ≠ trickyInput := by
  refine ⟨okBytes_spec _ (by decide), okBytes_spec _ (by decide),
    by decide, by decide, ne_of_getD_ne _ _ 1056 0 (by decide)⟩

/-- Scenario S1's input: 1000 bytes of `0x41`. -/
def s1Input : List Nat := List.replicate 1000 65

/-- Counterexample to claim C7 as frozen: on `[0x41] * 1000` the four
predicted savings are P8L8 994, P8L16 996, P16L8 992, P16L16 995, so the
selector returns `P8L16` — strictly maximal, hence independent of the
unordered-map visit order — not `P8L8` as the claim states, and the table is
a single standard node, not a Signal+Long pair. -/
theorem s1_selects_P8L16 :
    collectRuns s1Input = [⟨0, 1000, 65⟩] ∧
    calculateFormatEfficiency .P8L8 (collectRuns s1Input) = 994 ∧
    calculateFormatEfficiency .P8L16 (collectRuns s1Input) = 996 ∧
    calculateFormatEfficiency .P16L8 (collectRuns s1Input) = 992 ∧
    calculateFormatEfficiency .P16L16 (collectRuns s1Input) = 995 ∧
    selectFormat (collectRuns s1Input) = (.fmt .P8L16, 996) ∧
    (selectFormat (collectRuns s1Input)).1 ≠ .fmt .P8L8 := by
  decide

/-- Claim C7 (amended): deflate on `[0x41] * 1000` selects `P8L16` and writes
the 20-byte file `header('R','L','E',0x12, decompressedLength = 1000,
tableNodeCount = 1)` followed by the single standard node `(0, 1000, 0x41)`
(bytes `0, 232, 3, 65`) and no verbatim bytes; inflate on that file returns
the 1000 bytes of `0x41`. -/
theorem s1_roundtrip :
    deflateModel s1Input = some (.ok
      ([82, 76, 69, 0x12] ++ leBytes 8 1000 ++ leBytes 4 1 ++
        [0, 232, 3, 65])) ∧
    inflateModel ([82, 76, 69, 0x12] ++ leBytes 8 1000 ++ leBytes 4 1 ++
      [0, 232, 3, 65]) = some (.ok s1Input) := by
  constructor
  · decide
  · have hok : inflateModel ([82, 76, 69, 0x12] ++ leBytes 8 1000 ++
        leBytes 4 1 ++ [0, 232, 3, 65]) = some (.ok (okBytes (inflateModel
        ([82, 76, 69, 0x12] ++ leBytes 8 1000 ++ leBytes 4 1 ++
          [0, 232, 3, 65])))) := okBytes_spec _ (by decide)
    have heq : okBytes (inflateModel ([82, 76, 69, 0x12] ++ leBytes 8 1000 ++
        leBytes 4 1 ++ [0, 232, 3, 65])) = s1Input :=
      (listEqTR_iff _ _).mp (by decide)
    rw [hok, heq]

def block71 : List Nat := 0 :: List.replicate 10 1

def repeatList {a : Type} : Nat → List a → List a
  | 0, _ => []
  | n + 1, l => l ++ repeatList n l

def bigInput : List Nat := repeatList 100 block71 ++ (0 :: List.replicate 70000 2)

def bigRuns : List Run := List.replicate 100 ⟨1, 10, 1⟩ ++ [⟨1, 70000, 2⟩]

theorem repeatList_length {a : Type} (l : List a) :
    ∀ n, (repeatList n l).length = n * l.length := by
  intro n
  induction n with
  | zero => simp [repeatList]
  | succ n ih =>
    show (l ++ repeatList n l).length = (n + 1) * l.length
    rw [List.length_append, ih]
    ring

theorem takeRun_stop (v w acc : Nat) (rest : List Nat) (h : ¬ w = v) :
    takeRun v acc (w :: rest) = acc := by
  simp [takeRun, h]

theorem takeRun_cons_self (v acc : Nat) (rest : List Nat) :
    takeRun v acc (v :: rest) = takeRun v (acc + 1) rest := by
  simp [takeRun]

theorem takeRun_replicate (v : Nat) : ∀ (n acc : Nat),
    takeRun v acc (List.replicate n v) = acc + n := by
  intro n
  induction n with
  | zero =>
    intro acc
    rw [List.replicate_zero]
    show takeRun v acc [] = acc + 0
    rw [takeRun]
    omega
  | succ n ih =>
    intro acc
    rw [List.replicate_succ, takeRun_cons_self, ih]
    omega

theorem takeRun_replicate_append (v w : Nat) (rest : List Nat)
    (h : ¬ w = v) : ∀ (n acc : Nat),
    takeRun v acc (List.replicate n v ++ w :: rest) = acc + n := by
  intro n
  induction n with
  | zero =>
    intro acc
    rw [List.replicate_zero, List.nil_append, takeRun_stop v w acc rest h]
    omega
  | succ n ih =>
    intro acc
    rw [List.replicate_succ, List.cons_append, takeRun_cons_self, ih]
    omega

theorem collectRunsFuel_nil (fuel pos pt : Nat) :
    collectRunsFuel fuel pos pt [] = [] := by
  cases fuel <;> rfl

theorem collectRunsFuel_cons (fuel pos prevTail x : Nat) (xs : List Nat) :
    collectRunsFuel (fuel + 1) pos prevTail (x :: xs) =
      if Fmt.P8L8.size < takeRun x 1 xs then
        ⟨pos - prevTail, takeRun x 1 xs, x⟩ ::
          collectRunsFuel fuel (pos + takeRun x 1 xs) (pos + takeRun x 1 xs)
            (xs.drop (takeRun x 1 xs - 1))
      else
        collectRunsFuel fuel (pos + takeRun x 1 xs) prevTail
          (xs.drop (takeRun x 1 xs - 1)) := rfl

theorem drop_replicate_self {a : Type} (x : a) : ∀ n,
    (List.replicate n x).drop n = [] := by
  intro n
  induction n with
  | zero => rfl
  | succ n ih => rw [List.replicate_succ, List.drop_succ_cons, ih]

theorem collect_bigInput : ∀ (k fuel pos : Nat), 2 * k + 2 < fuel →
    collectRunsFuel fuel pos pos
        (repeatList k block71 ++ (0 :: List.replicate 70000 2))
      = List.replicate k ⟨1, 10, 1⟩ ++ [⟨1, 70000, 2⟩] := by
  intro k
  induction k with
  | zero =>
    intro fuel pos hf
    obtain ⟨m, rfl⟩ : ∃ m, fuel = m + 1 + 1 := ⟨fuel - 2, by omega⟩
    rw [show repeatList 0 block71 ++ (0 :: List.replicate 70000 2)
      = 0 :: 2 :: List.replicate 69999 2 from rfl]
    rw [collectRunsFuel_cons, takeRun_stop 0 2 1 _ (by decide),
      if_neg (by decide), show (1 : Nat) - 1 = 0 from rfl, List.drop_zero]
    rw [collectRunsFuel_cons, takeRun_replicate 2 69999 1,
      if_pos (by decide)]
    have hdrop : (List.replicate 69999 (2 : Nat)).drop (1 + 69999 - 1) = [] := by
      rw [show (1 : Nat) + 69999 - 1 = 69999 from rfl]
      exact drop_replicate_self 2 69999
    rw [hdrop, collectRunsFuel_nil]
    simp [Run.mk.injEq, Nat.add_sub_cancel_left]
  | succ k ih =>
    intro fuel pos hf
    obtain ⟨m, rfl⟩ : ∃ m, fuel = m + 1 + 1 := ⟨fuel - 2, by omega⟩
    rw [show repeatList (k + 1) block71 ++ (0 :: List.replicate 70000 2)
        = 0 :: (1 :: (List.replicate 9 1 ++ (repeatList k block71 ++
          (0 :: List.replicate 70000 2)))) from by
      show (block71 ++ repeatList k block71) ++ _ = _
      rw [List.append_assoc]
      rfl]
    rw [collectRunsFuel_cons, takeRun_stop 0 1 1 _ (by decide),
      if_neg (by decide), show (1 : Nat) - 1 = 0 from rfl, List.drop_zero]
    have hshape : ∃ t : List Nat, repeatList k block71 ++
        (0 :: List.replicate 70000 2) = 0 :: t := by
      cases k with
      | zero => exact ⟨List.replicate 70000 2, rfl⟩
      | succ j => exact ⟨List.replicate 10 1 ++ (repeatList j block71 ++
          (0 :: List.replicate 70000 2)), by
        show (block71 ++ repeatList j block71) ++ _ = _
        rw [List.append_assoc]
        rfl⟩
    obtain ⟨t, ht⟩ := hshape
    rw [collectRunsFuel_cons, ht,
      takeRun_replicate_append 1 0 t (by decide) 9 1, if_pos (by decide)]
    have hdrop : (List.replicate 9 (1 : Nat) ++ (0 :: t)).drop (1 + 9 - 1)
        = 0 :: t := by
      have h9 : (1 : Nat) + 9 - 1 = (List.replicate 9 (1 : Nat)).length := by
        simp
      rw [h9, List.drop_left]
    rw [hdrop, ← ht, ih m (pos + 1 + (1 + 9)) (by omega)]
    simp [List.replicate_succ, Run.mk.injEq, Nat.add_sub_cancel_left]

theorem bigInput_length : bigInput.length = 71101 := by
  show (repeatList 100 block71 ++ (0 :: List.replicate 70000 2)).length = 71101
  rw [List.length_append, repeatList_length, List.length_cons,
    List.length_replicate, show block71.length = 11 from rfl]

theorem collectRuns_bigInput : collectRuns bigInput = bigRuns := by
  show collectRunsFuel (bigInput.length + 1) 0 0 bigInput = bigRuns
  rw [bigInput_length]
  exact collect_bigInput 100 (71101 + 1) 0 (by norm_num)

theorem listLen_bigInput : listLen 0 bigInput = 71101 := by
  rw [listLen_eq, bigInput_length]

theorem selectFormat_bigRuns :
    selectFormat bigRuns = (NodeFormat.fmt Fmt.P8L8, 70688) := by decide

theorem deflateWalk_data_indep (f : Fmt) :
    ∀ (nodes : List PNode) (d1 d2 o1 o2 : List Nat) (c : Nat) (b : Bool),
      (List.foldl (deflateStep f d1) (o1, c, b) nodes).2 =
      (List.foldl (deflateStep f d2) (o2, c, b) nodes).2 := by
  intro nodes
  induction nodes with
  | nil => intro d1 d2 o1 o2 c b; rfl
  | cons n ns ih =>
    intro d1 d2 o1 o2 c b
    rw [List.foldl_cons, List.foldl_cons]
    cases b with
    | true => exact ih d1 d2 _ _ _ _
    | false => exact ih d1 d2 _ _ _ _

theorem walk_bigInput :
    (deflateWalk Fmt.P8L8 bigInput
      (parseNodes Fmt.P8L8
        ((parseRunSet Fmt.P8L8 bigRuns).map (nodeBytes Fmt.P8L8)).flatten
        (listLen 0 (parseRunSet Fmt.P8L8 bigRuns)))).2.1 = 71102 := by
  have h := deflateWalk_data_indep Fmt.P8L8
    (parseNodes Fmt.P8L8
      ((parseRunSet Fmt.P8L8 bigRuns).map (nodeBytes Fmt.P8L8)).flatten
      (listLen 0 (parseRunSet Fmt.P8L8 bigRuns))) bigInput [] [] [] 0 false
  simp only [deflateWalk]
  rw [h]
  decide

theorem deflateModel_of_bigRuns (D : List Nat)
    (h1 : collectRuns D = bigRuns)
    (h2 : listLen 0 D = 71101)
    (h3 : (deflateWalk Fmt.P8L8 D
      (parseNodes Fmt.P8L8
        ((parseRunSet Fmt.P8L8 bigRuns).map (nodeBytes Fmt.P8L8)).flatten
        (listLen 0 (parseRunSet Fmt.P8L8 bigRuns)))).2.1 = 71102) :
    deflateModel D = none := by
  simp only [deflateModel]
  rw [h1, selectFormat_bigRuns]
  dsimp only
  rw [if_neg (show ¬ (2 ^ 32 - 1 <
    listLen 0 (parseRunSet Fmt.P8L8 bigRuns)) from by decide)]
  rw [h2, h3, if_pos (by norm_num)]

theorem deflateModel_bigInput : deflateModel bigInput = none :=
  deflateModel_of_bigRuns bigInput collectRuns_bigInput listLen_bigInput
    walk_bigInput

/-- **C3** (`deflateFile` / `deflateData`, `RLE_Deflate.h`): the spec claims
that whenever deflate succeeds, the allocated output of
`N - saving + sizeof(Header)` bytes is filled exactly, the state machine's
cursors landing on the end of the mapped ranges with no slack and no
overflow. This is false: on the 71101-byte input `bigInput` (100 short runs
of ten `1`s, then a 70000-byte run of `2`s) the selected format is `P8L8`
with predicted saving `70688`, yet the `deflateData` walk re-consumes the
run prefix once per signal/long pair, driving the input cursor to
`71102` — one byte past the end of the input view — so the trailing
`std::copy` runs with `first` past `last`, the write never reaches the
predicted end of the allocation, and the model yields `none` instead of a
result of the predicted size. -/
theorem predicted_size_cursor_overflow :
    collectRuns bigInput = bigRuns ∧
    selectFormat bigRuns = (NodeFormat.fmt Fmt.P8L8, 70688) ∧
    listLen 0 bigInput = 71101 ∧
    (deflateWalk Fmt.P8L8 bigInput
      (parseNodes Fmt.P8L8
        ((parseRunSet Fmt.P8L8 bigRuns).map (nodeBytes Fmt.P8L8)).flatten
        (listLen 0 (parseRunSet Fmt.P8L8 bigRuns)))).2.1 = 71102 ∧
    deflateModel bigInput = none :=
  ⟨collectRuns_bigInput, selectFormat_bigRuns, listLen_bigInput, walk_bigInput,
    deflateModel_bigInput⟩
